import Mathlib

/-!
Verification development for the hybrid-test-bench repository.

The Python sources are shallowly embedded over exact arithmetic:
machine floats become ℚ, rounded sample values become ℤ, and the
transcendental / stochastic library calls (math.sin, np.exp, the
Gaussian draws, solve_ivp, np.random.choice, np.std) are threaded
through as explicit oracle parameters, so every definition stays
executable and every theorem quantifies over the oracles it does not
pin down.
-/

set_option maxHeartbeats 1600000

namespace HTB

/-- Python round: round half to even (banker's rounding), applied to the
raw sample values before they enter the peak history. -/
def pyRound (q : ℚ) : ℤ :=
  let f : ℤ := q.floor
  let r : ℚ := q - f
  if r < 1/2 then f
  else if 1/2 < r then f + 1
  else if f % 2 = 0 then f else f + 1

/-- One rainflow half-cycle record, the Python list
[startStep, endStep, startValue, endValue(, direction)] of
RainFlowCycleAlgorithm.py; dir = 0 encodes the absent fifth element of a
just-created flow, dir = 1 / -1 the appended direction flag. -/
structure Flow where
  start : ℕ
  stop : ℕ
  sv : ℤ
  ev : ℤ
  dir : ℤ
deriving DecidableEq, Repr

/-- One iteration of the loop body of RFCA.counter_step (lines 73-123) on a
single active flow: the updated record, whether the loop marked it
terminated, and the updated current_max / first accumulators. -/
def procFlow (step : ℕ) (d : ℤ) (cmax : ℤ) (first : Bool) (F : Flow) :
    Flow × Bool × ℤ × Bool :=
  let F1 : Flow := { F with stop := step }
  if F1.start + 1 = step then
    let F2 := { F1 with ev := cmax }
    let F3 := { F2 with dir := if F2.sv < d then 1 else -1 }
    (F3, !first, cmax, false)
  else if F1.dir = -1 then
    if F1.sv < d then (F1, true, cmax, first)
    else if d ≤ F1.ev then ({ F1 with ev := cmax }, !first, F1.ev, false)
    else (F1, false, cmax, first)
  else if F1.dir = 1 then
    if d < F1.sv then (F1, true, cmax, first)
    else if F1.ev ≤ d then ({ F1 with ev := cmax }, !first, F1.ev, false)
    else (F1, false, cmax, first)
  else (F1, false, cmax, first)

/-- The loop of RFCA.counter_step over the snapshot of active_flows,
threading current_max and first through the iterations. -/
def runFlows (step : ℕ) (d : ℤ) : ℤ → Bool → List Flow → List (Flow × Bool)
  | _, _, [] => []
  | cmax, first, F :: rest =>
    let r := procFlow step d cmax first F
    (r.1, r.2.1) :: runFlows step d r.2.2.1 r.2.2.2 rest

/-- Result of one counter_step, split into its effect on (step, active_flows),
the in-place writes it performs on the flows list (position, new record) and
the fresh open record it appends. -/
structure StepRes where
  step : ℕ
  active : List Flow
  writes : List (ℕ × Flow)
  newFlow : Flow
deriving Repr

/-- RFCA.counter_step (lines 65-131) on the (step, active_flows) part.
Every processed active flow yields one write at index start-1: either the
explicit assignment self.flows[flows[0]-1] = flows, or the in-place mutation
of the record object already aliased into the flows list (flows[1] = step,
flows[3] = current_max). Terminated marks are resolved by filtering, which
matches the pop-by-descending-index epilogue. -/
def counter_step_core (step0 : ℕ) (active : List Flow) (d : ℤ) : StepRes :=
  let step := step0 + 1
  let out := runFlows step d d true active
  let newF : Flow := ⟨step, step, d, d, 0⟩
  { step := step
    active := (out.filter (fun p => !p.2)).map (fun p => p.1) ++ [newF]
    writes := out.map (fun p => (p.1.start - 1, p.1))
    newFlow := newF }

/-- Apply a sequence of indexed writes to the flows list. -/
def applyWrites (fl : List Flow) (ws : List (ℕ × Flow)) : List Flow :=
  ws.foldl (fun l w => l.set w.1 w.2) fl

/-- The mutable counter part of an RFCA instance. -/
structure RState where
  step : ℕ
  flows : List Flow
  active : List Flow
deriving DecidableEq, Repr

/-- RFCA.counter_step as a state transformer: writes land in the existing
flows list, the fresh open record is appended at the end. -/
def counter_step (st : RState) (d : ℤ) : RState :=
  let r := counter_step_core st.step st.active d
  { step := r.step
    flows := applyWrites st.flows r.writes ++ [r.newFlow]
    active := r.active }

/-- Feeding a list of already-rounded peaks through counter_step. -/
def runFrom (st : RState) (D : List ℤ) : RState := D.foldl counter_step st

/-- Full RFCA instance state: counter part, the two buffered raw samples
Atmp = [Atmp0, Atmp1] (most recent first) and the retained peak history. -/
structure RFCAState where
  step : ℕ
  flows : List Flow
  active : List Flow
  Atmp0 : ℚ
  Atmp1 : ℚ
  data : List ℤ
deriving DecidableEq, Repr

/-- RFCA.__init__ with an empty data list. -/
def rfcaInit : RFCAState :=
  { step := 0, flows := [], active := [], Atmp0 := 0, Atmp1 := 0, data := [] }

/-- Projection to the counter part. -/
def rain (st : RFCAState) : RState := ⟨st.step, st.flows, st.active⟩

/-- Replace the counter part. -/
def withRain (st : RFCAState) (r : RState) : RFCAState :=
  { st with step := r.step, flows := r.flows, active := r.active }

/-- RFCA.update_if_peak (lines 50-63): confirm a peak when the buffered pair
is non-increasing and the newest buffered sample is strictly below the new
sample, or non-decreasing and strictly above it; on confirmation append the
rounded buffered sample to data and run counter_step on it; always shift the
two-sample buffer. -/
def update_if_peak (st : RFCAState) (x : ℚ) : RFCAState × Bool :=
  if (st.Atmp0 ≤ st.Atmp1 ∧ st.Atmp0 < x) ∨ (st.Atmp1 ≤ st.Atmp0 ∧ x < st.Atmp0) then
    let p := pyRound st.Atmp0
    let r := counter_step (rain st) p
    ({ withRain st r with data := st.data ++ [p], Atmp0 := x, Atmp1 := st.Atmp0 }, true)
  else
    ({ st with Atmp0 := x, Atmp1 := st.Atmp0 }, false)

/-- Feed a raw sample sequence through update_if_peak from a fresh instance. -/
def observeAll (samples : List ℚ) : RFCAState :=
  samples.foldl (fun st x => (update_if_peak st x).1) rfcaInit

/-- RFCA.rerun_counter (lines 136-142): reset the step counter and the active
set (but not the flows list) and re-run counter_step over the retained data. -/
def rerun (st : RFCAState) : RFCAState :=
  withRain st (runFrom ⟨0, st.flows, []⟩ st.data)

/-- round(abs(endValue - startValue)); flow values are already integers, so
Python round is the identity here. -/
def rangeOf (f : Flow) : ℕ := (f.ev - f.sv).natAbs

/-- Lexicographic order on [range, count] pairs, as Python sorted() compares
the two-element lists. -/
def lexLe (a b : ℕ × ℚ) : Prop := a.1 < b.1 ∨ (a.1 = b.1 ∧ a.2 ≤ b.2)

instance : DecidableRel lexLe := fun a b => by
  unfold lexLe; infer_instance

/-- Python sorted() on the cycles list. -/
def sortPairs (l : List (ℕ × ℚ)) : List (ℕ × ℚ) := l.insertionSort lexLe

/-- self.cycles[idx][1] += 0.5 at the first entry whose range matches. -/
def bump : List (ℕ × ℚ) → ℕ → List (ℕ × ℚ)
  | [], _ => []
  | c :: cs, r => if c.1 = r then (c.1, c.2 + 1/2) :: cs else c :: bump cs r

/-- One iteration of the loop in RFCA.get_cycles (lines 27-37). -/
def cyclesStep (cs : List (ℕ × ℚ)) (f : Flow) : List (ℕ × ℚ) :=
  let r := rangeOf f
  let cs1 :=
    if (cs.map Prod.fst).contains r then bump cs r
    else if 0 < r then cs ++ [(r, 1/2)] else cs
  sortPairs cs1

/-- RFCA.get_cycles (lines 24-42): fold the histogram over all flows but the
last registered one. -/
def get_cycles (fl : List Flow) : List (ℕ × ℚ) := fl.dropLast.foldl cyclesStep []

/-- Total count registered at a given range (sum over matching entries). -/
def countAt (cs : List (ℕ × ℚ)) (r : ℕ) : ℚ :=
  ((cs.filter (fun e => e.1 == r)).map (fun e => e.2)).sum

/-- Sum of all counts in a cycles list. -/
def sumCounts (cs : List (ℕ × ℚ)) : ℚ := (cs.map (fun e => e.2)).sum

/-- Follows the spec's words (§3, §4.3): a flow is closed once it has been
removed from the active working set; computed here by record value. -/
def closedFlows (flows active : List Flow) : List Flow :=
  flows.filter (fun f => !(active.contains f))

/-- Follows the spec's words: the cycle histogram aggregated over closed
flows only. -/
def specCycles (flows active : List Flow) : List (ℕ × ℚ) :=
  (closedFlows flows active).foldl cyclesStep []

/-- Follows the spec's words (§4.3, observe): the trend strictly reverses
between the two buffered samples and the new sample - peak when the buffer
strictly rose and the new sample falls back, valley symmetrically. -/
def strictReversal (recent prev x : ℚ) : Prop :=
  (prev < recent ∧ x < recent) ∨ (recent < prev ∧ recent < x)

/-- The last value written at position p, if any. -/
def lastWriteVal (ws : List (ℕ × Flow)) (p : ℕ) : Option Flow :=
  ws.foldl (fun acc w => if w.1 = p then some w.2 else acc) none

/-- Invariant carried by the active set: every active flow was created at a
step between 1 and the current step. -/
def ActiveOK (s : ℕ) (a : List Flow) : Prop :=
  ∀ g ∈ a, 1 ≤ g.start ∧ g.start ≤ s

/-- A whole run at the core level: final (step, active) together with the
concatenated writes and the appended open records, in order. -/
structure CoreRunRes where
  stepF : ℕ
  activeF : List Flow
  writes : List (ℕ × Flow)
  appends : List Flow

def coreRun (s : ℕ) (a : List Flow) : List ℤ → CoreRunRes
  | [] => ⟨s, a, [], []⟩
  | d :: D =>
    let r := counter_step_core s a d
    let rest := coreRun r.step r.active D
    ⟨rest.stepF, rest.activeF, r.writes ++ rest.writes, r.newFlow :: rest.appends⟩

instance : IsTrans (ℕ × ℚ) lexLe := ⟨by
  intro a b c hab hbc
  unfold lexLe at *
  rcases hab with h1 | ⟨h1, h2⟩ <;> rcases hbc with h3 | ⟨h3, h4⟩
  · exact Or.inl (by omega)
  · exact Or.inl (by omega)
  · exact Or.inl (by omega)
  · exact Or.inr ⟨by omega, le_trans h2 h4⟩⟩

instance : IsTotal (ℕ × ℚ) lexLe := ⟨by
  intro a b
  unfold lexLe
  rcases Nat.lt_trichotomy a.1 b.1 with h | h | h
  · exact Or.inl (Or.inl h)
  · rcases le_total a.2 b.2 with h2 | h2
    · exact Or.inl (Or.inr ⟨h, h2⟩)
    · exact Or.inr (Or.inr ⟨h.symm, h2⟩)
  · exact Or.inr (Or.inl h)⟩

instance : IsAntisymm (ℕ × ℚ) lexLe := ⟨by
  intro a b hab hba
  rcases hab with h | ⟨h1, h2⟩
  · rcases hba with h3 | ⟨h3, _⟩
    · exact absurd h3 (by omega)
    · exact absurd h3 (by omega)
  · rcases hba with h3 | ⟨_, h4⟩
    · exact absurd h3 (by omega)
    · exact Prod.ext h1 (le_antisymm h2 h4)⟩

/-- Number of flows in a list whose rounded range equals r. -/
def histCount (l : List Flow) (r : ℕ) : ℕ := l.countP (fun f => rangeOf f == r)

/-- Number of flows in a list with nonzero rounded range. -/
def nzCount (l : List Flow) : ℕ := l.countP (fun f => rangeOf f != 0)

instance (a b c : ℚ) : Decidable (strictReversal a b c) := by
  unfold strictReversal
  infer_instance

/-! ### Actuator controller, particle filter, and the two service ticks -/

/-- The numeric domain errors Python can raise in bench_ODE:
ZeroDivisionError and math domain error from asin. -/
inductive NumErr
  | divByZero
  | asinDomain
deriving DecidableEq, Repr

/-- Python division: raises ZeroDivisionError on a zero denominator. -/
def checkedDiv (a b : ℚ) : Except NumErr ℚ :=
  if b = 0 then Except.error NumErr.divByZero else Except.ok (a / b)

/-- math.asin: domain error outside [-1, 1]; the value itself is an oracle. -/
def checkedAsin (asinF : ℚ → ℚ) (x : ℚ) : Except NumErr ℚ :=
  if |x| ≤ 1 then Except.ok (asinF x) else Except.error NumErr.asinDomain

/-- np.clip(x, lo, hi): the upper bound wins. -/
def clip (x lo hi : ℚ) : ℚ := min hi (max lo x)

/-- bench_ODE (actuator_controller.py lines 26-76). Every Python division is
modelled by checkedDiv and asin by checkedAsin; sin, cos, asin values and pi
come in as oracles, so the theorems hold for any actual trigonometry. -/
def bench_ODE (sinF cosF asinF : ℚ → ℚ) (piQ s v s0 omega vmax amax : ℚ) :
    Except NumErr (ℚ × ℚ) :=
  match checkedDiv s s0 with
  | Except.error e => Except.error e
  | Except.ok q =>
    match (if |q| ≤ 1 then
        match checkedAsin asinF q with
        | Except.error e => Except.error e
        | Except.ok a => checkedDiv a omega
      else Except.ok 0 : Except NumErr ℚ) with
    | Except.error e => Except.error e
    | Except.ok ts0 =>
      match (if 0 ≤ v then Except.ok ts0
        else match checkedDiv piQ omega with
          | Except.error e => Except.error e
          | Except.ok po => Except.ok (po - ts0) : Except NumErr ℚ) with
      | Except.error e => Except.error e
      | Except.ok ts =>
        let v0 := s0 * omega
        let a0 := v0 * omega
        let _sT := s0 * sinF (omega * ts)
        let vT := v0 * cosF (omega * ts)
        let aT0 := -a0 * sinF (omega * ts)
        match (if v = 0 then Except.ok 1 else checkedDiv vT v : Except NumErr ℚ) with
        | Except.error e => Except.error e
        | Except.ok scale =>
          let aT1 := if aT0 = 0 ∧ ¬ vT = v then vT else aT0
          let aT2 := aT1 * scale + (vT - v)
          let aT3 := if s0 ≤ |s| then (if 0 < s then -(|s| - s0) else |s| - s0) else aT2
          let aPos := if 0 < s then amax else amax * 2
          let aNeg := if 0 < s then -amax * 2 else -amax
          Except.ok (clip v (-vmax) vmax, clip aT3 aNeg aPos)

/-- The mutable state of one ActuatorController instance. -/
structure ACState where
  S : ℚ
  V : ℚ
  AMP : ℚ
  T : ℚ
  FREQ : ℚ
  VMax : ℚ
  AMax : ℚ
  step : ℕ
  lastStep : ℕ
  particles : List (ℚ × ℚ)
  weights : List ℚ
  obsStd : ℚ
  procSStd : ℚ
  procVStd : ℚ
  results : ℚ × ℚ
  uncert : ℚ
deriving DecidableEq, Repr

/-- ActuatorController.get_state (lines 100-102). -/
def get_state (st : ACState) : ℚ := st.S

/-- ActuatorController.set_amplitude (lines 134-140). -/
def set_amplitude (st : ACState) (amp : ℚ) : ACState :=
  let vmax := amp * st.FREQ * (11/10)
  { st with AMP := amp, VMax := vmax, AMax := vmax * st.FREQ * (11/10) }

/-- ActuatorController.set_frequency (lines 142-148); freq is given in RPM. -/
def set_frequency (st : ACState) (freq : ℚ) : ACState :=
  let f := freq / 60
  let vmax := st.AMP * f * (11/10)
  { st with FREQ := f, VMax := vmax, AMax := vmax * f * (11/10) }

/-- ActuatorController.set_period (lines 150-157); piQ stands in for math.pi. -/
def set_period (piQ : ℚ) (st : ACState) (period : ℚ) : ACState :=
  let f := (2 * piQ / 60) / period
  let vmax := st.AMP * f * (11/10)
  { st with T := period, FREQ := f, VMax := vmax, AMax := vmax * f * (11/10) }

/-- ActuatorController.calibrate (lines 159-185): reset the particle filter,
overwrite the position with the observed value and recompute the velocity.
Division is total as in ℚ; the claims exercise the code path with nonzero
amplitude and frequency where ℚ division agrees with Python division. -/
def calibrate (asinF cosF : ℚ → ℚ) (piQ : ℚ) (st : ACState) (o : ℚ) : ACState :=
  let s0 := st.AMP
  let omega := st.FREQ
  let v0 := s0 * omega
  let s := o
  let v := st.V
  let ts0 := if |s / s0| ≤ 1 then asinF (s / s0) / omega else 0
  let ts := if 0 ≤ v then ts0 else piQ / omega - ts0
  { st with step := 0, lastStep := 0, particles := [], weights := [],
            results := (0, 0), uncert := 0,
            S := o, V := v0 * omega * cosF (omega * ts) }

/-- Follows the spec's words (§4.1 step 3 and the resync clause): the
feedforward reference velocity vTarget = v0 cos(omega ts) with
v0 = amplitude times omega, at the phase ts recovered from the observed
position by the same asin / velocity-sign branch logic. -/
def resync_velocity_spec (asinF cosF : ℚ → ℚ) (piQ : ℚ) (st : ACState) (o : ℚ) : ℚ :=
  let s0 := st.AMP
  let omega := st.FREQ
  let v0 := s0 * omega
  let ts0 := if |o / s0| ≤ 1 then asinF (o / s0) / omega else 0
  let ts := if 0 ≤ st.V then ts0 else piQ / omega - ts0
  v0 * cosF (omega * ts)

/-- ActuatorController.step_simulation / run_ODE (lines 104-131): one solver
step, its endpoint supplied by the ode oracle. -/
def step_simulation (ode : ℚ × ℚ → ℚ × ℚ) (st : ACState) : ACState :=
  let y := ode (st.S, st.V)
  { st with step := st.step + 1, S := y.1, V := y.2 }

/-- ActuatorController.pf_step (lines 223-268). Oracles: expF for np.exp,
noises for the per-particle Gaussian draws, propg for the solve_ivp
propagation over d_step ticks (propg p 0 = p, since t_eval = [0] selects the
initial condition), resamp for np.random.choice, stdFn for np.std. -/
def pf_step (expF : ℚ → ℚ) (noises : List (ℚ × ℚ)) (propg : ℚ × ℚ → ℕ → ℚ × ℚ)
    (resamp : List ℚ → List ℕ) (stdFn : List ℚ → ℚ)
    (st : ACState) (rState : ℚ) (dStep : ℕ) : ACState × (ℚ × ℚ) × ℚ :=
  let num := st.particles.length
  let moved := (st.particles.zip noises).map
    (fun p => propg (p.1.1 + p.2.1, p.1.2 + p.2.2) dStep)
  let w1 := moved.map (fun p => expF (-(1/2) * (((p.1 - rState) / st.obsStd) ^ 2)))
  let w2 := w1.map (fun w => w + 1 / 10 ^ 300)
  let w3 := w2.map (fun w => w / w2.sum)
  let idx := resamp w3
  let resampled := idx.map (fun i => moved.getD i (0, 0))
  let newWeights := List.replicate num ((1 : ℚ) / num)
  let res := ((resampled.map (fun p => p.1)).sum / resampled.length,
              (resampled.map (fun p => p.2)).sum / resampled.length)
  let un := stdFn (resampled.map (fun p => p.1))
  let stOut := { st with particles := resampled, weights := newWeights,
                         results := res, uncert := un }
  (stOut, res, un)

/-- ActuatorController.pf_state (lines 187-221): lazy cloud initialization,
noise setup, elapsed-step bookkeeping, one pf_step, and the write-back of
the estimate into the planner state (_S, _V). -/
def pf_state (expF : ℚ → ℚ) (noises : List (ℚ × ℚ)) (propg : ℚ × ℚ → ℕ → ℚ × ℚ)
    (resamp : List ℚ → List ℕ) (stdFn : List ℚ → ℚ)
    (st0 : ACState) (rState : ℚ) (numParticles : ℕ) (obsNoise sNoise vNoise : ℚ) :
    ACState × ℚ × ℚ :=
  let st1 := if st0.particles.isEmpty then
      { st0 with particles := List.replicate numParticles (st0.S, st0.V),
                 weights := List.replicate numParticles ((1 : ℚ) / numParticles),
                 lastStep := st0.step, results := (0, 0), uncert := 0 }
    else st0
  let st2 := { st1 with obsStd := obsNoise, procSStd := st1.AMP * sNoise,
                        procVStd := st1.VMax * vNoise }
  let dStep := st2.step - st2.lastStep
  let st3 := { st2 with lastStep := st2.step }
  let r := pf_step expF noises propg resamp stdFn st3 rState dStep
  let stOut := { r.1 with S := r.2.1.1, V := r.2.1.2 }
  (stOut, r.2.1.1, r.2.2)

/-- The observable operations DTService.emulate_dt performs on its planners. -/
inductive DTEvent
  | resyncH
  | resyncV
  | pfH
  | pfV
deriving DecidableEq, Repr

/-- The numeric and structural-model oracles of one DT tick. -/
structure DTOracles where
  asinF : ℚ → ℚ
  cosF : ℚ → ℚ
  piQ : ℚ
  expF : ℚ → ℚ
  stdFn : List ℚ → ℚ
  noisesH : List (ℚ × ℚ)
  noisesV : List (ℚ × ℚ)
  propH : ℚ × ℚ → ℕ → ℚ × ℚ
  propV : ℚ × ℚ → ℕ → ℚ × ℚ
  resampH : List ℚ → List ℕ
  resampV : List ℚ → List ℕ
  odeH : ℚ × ℚ → ℚ × ℚ
  odeV : ℚ × ℚ → ℚ × ℚ
  calib : List ℚ → ℚ × ℚ × ℚ × ℚ → List ℚ
  sim : List ℚ → ℚ → ℚ → List ℚ
  dataOf : List ℚ → ℚ × ℚ × ℚ × ℚ
  getE : List ℚ → ℚ

/-- The mutable state of DTService: the two planners, the commanded
amplitudes, the excitation flag (a float compared against 1.0), the latest
observation fields, the structural model (abstracted to its parameter
vector), and the four published output fields plus the modulus. -/
structure DTState where
  hAC : ACState
  vAC : ACState
  lhWanted : ℚ
  uvWanted : ℚ
  forceOn : ℚ
  stateReceived : Bool
  PThd : ℚ
  PTvd : ℚ
  PThf : ℚ
  PTvf : ℚ
  model : List ℚ
  uh : ℚ
  uv : ℚ
  lh : ℚ
  lv : ℚ
  Emod : ℚ
deriving Repr

/-- DTService.emulate_dt (lines 165-245): the excitation-on tick runs the
observation branch (drift check, resync, particle filter, model
calibration), then the planner steps and the structural solve; the
excitation-off tick zeroes the four published outputs. Returns the events of
the observation branch. -/
def emulate_dt (o : DTOracles) (st : DTState) : DTState × List DTEvent :=
  if st.forceOn = 1 then
    let sync :=
      if st.stateReceived then
        let h1 := if (1/10) * st.lhWanted < |get_state st.hAC - st.PThf| then
            (calibrate o.asinF o.cosF o.piQ st.hAC st.PThf, [DTEvent.resyncH])
          else (st.hAC, [])
        let v1 := if (1/10) * st.uvWanted < |get_state st.vAC - st.PTvd| then
            (calibrate o.asinF o.cosF o.piQ st.vAC st.PTvd, [DTEvent.resyncV])
          else (st.vAC, [])
        let h2 := pf_state o.expF o.noisesH o.propH o.resampH o.stdFn h1.1 st.PThf
          100 1 (1/1000) (1/1000)
        let v2 := pf_state o.expF o.noisesV o.propV o.resampV o.stdFn v1.1 st.PTvd
          100 1 (1/1000) (1/1000)
        let stSync := { st with hAC := h2.1, vAC := v2.1,
                                model := o.calib st.model (st.PThd, st.PTvd, st.PThf, st.PTvf) }
        (stSync, h1.2 ++ v1.2 ++ [DTEvent.pfH, DTEvent.pfV])
      else (st, [])
    let h3 := step_simulation o.odeH sync.1.hAC
    let v3 := step_simulation o.odeV sync.1.vAC
    let m2 := o.sim sync.1.model (get_state h3) (get_state v3)
    let d := o.dataOf m2
    let stOut := { sync.1 with hAC := h3, vAC := v3, model := m2,
                               uh := d.1, uv := d.2.1, lh := d.2.2.1, lv := d.2.2.2,
                               Emod := o.getE m2 }
    (stOut, sync.2)
  else
    let stOut := { st with uh := 0, uv := 0, lh := 0, lv := 0, Emod := o.getE st.model }
    (stOut, [])

/-- Oracles of one PT emulator tick. -/
structure PTOracles where
  odeH : ℚ × ℚ → ℚ × ℚ
  odeV : ℚ × ℚ → ℚ × ℚ
  setBC : List ℚ → ℚ → ℚ → List ℚ
  outOf : List ℚ → ℚ × ℚ × ℚ × ℚ

/-- The mutable state of PTEmulatorService: bench ODE states of both axes,
commanded amplitudes, the excitation flag, the structural model parameters
and the four published output fields. -/
structure PTState where
  Sh : ℚ
  Vh : ℚ
  Sv : ℚ
  Vv : ℚ
  lhWanted : ℚ
  uvWanted : ℚ
  forceOn : ℚ
  model : List ℚ
  uh : ℚ
  uv : ℚ
  lh : ℚ
  lv : ℚ
deriving DecidableEq, Repr

/-- PTEmulatorService.emulate_pt (lines 162-231) with run_ODE (287-317): the
excitation-on tick advances both bench ODE states, writes the boundary
conditions into the structural model and reads the outputs; the
excitation-off tick zeroes the four published outputs and touches nothing
else. -/
def emulate_pt (o : PTOracles) (st : PTState) : PTState :=
  if st.forceOn = 1 then
    let yh := o.odeH (st.Sh, st.Vh)
    let yv := o.odeV (st.Sv, st.Vv)
    let m1 := o.setBC st.model yh.1 yv.1
    let d := o.outOf m1
    { st with Sh := yh.1, Vh := yh.2, Sv := yv.1, Vv := yv.2, model := m1,
              uh := d.1, uv := d.2.1, lh := d.2.2.1, lv := d.2.2.2 }
  else
    { st with uh := 0, uv := 0, lh := 0, lv := 0 }

/-- A controller freshly initialized like DTService does for the vertical
axis scaled down: amplitude 2, frequency 1/2 (a rational stand-in), empty
particle cloud. -/
def acBase : ACState :=
  { S := 0, V := 0, AMP := 2, T := 2, FREQ := 1/2, VMax := 11/10, AMax := 11/20,
    step := 0, lastStep := 0, particles := [], weights := [], obsStd := 1,
    procSStd := 0, procVStd := 0, results := (0, 0), uncert := 0 }

/-- Trivial oracle instantiations for concrete evaluations. -/
def dtOrcTriv : DTOracles :=
  { asinF := fun x => x, cosF := fun _ => 1, piQ := 3,
    expF := fun _ => 1, stdFn := fun _ => 0, noisesH := [], noisesV := [],
    propH := fun p _ => p, propV := fun p _ => p,
    resampH := fun _ => [], resampV := fun _ => [],
    odeH := fun p => p, odeV := fun p => p,
    calib := fun m _ => m, sim := fun m _ _ => m,
    dataOf := fun _ => (0, 0, 0, 0), getE := fun _ => 0 }

/-- A DT state on an excitation-on tick with a fresh observation whose
horizontal force deviates far beyond the 10 percent band. -/
def dtBase : DTState :=
  { hAC := acBase, vAC := acBase, lhWanted := 100, uvWanted := 20,
    forceOn := 1, stateReceived := true, PThd := 0, PTvd := 0, PThf := 50, PTvf := 0,
    model := [], uh := 0, uv := 0, lh := 0, lv := 0, Emod := 0 }

/-- The same tick with excitation off. -/
def dtOff : DTState := { dtBase with forceOn := 0 }

def ptOrcTriv : PTOracles :=
  { odeH := fun p => p, odeV := fun p => p,
    setBC := fun m _ _ => m, outOf := fun _ => (0, 0, 0, 0) }

/-- A PT emulator state with excitation off and nonzero prior outputs and
planner states. -/
def ptOff : PTState :=
  { Sh := 3, Vh := 4, Sv := 5, Vv := 6, lhWanted := 100, uvWanted := 100,
    forceOn := 0, model := [7, 8], uh := 1, uv := 2, lh := 3, lv := 4 }

/-! ### Indexed-write bookkeeping for the flows list -/

theorem applyWrites_nil (fl : List Flow) : applyWrites fl [] = fl := rfl

theorem applyWrites_cons (fl : List Flow) (w : ℕ × Flow) (ws : List (ℕ × Flow)) :
    applyWrites fl (w :: ws) = applyWrites (fl.set w.1 w.2) ws := rfl

theorem applyWrites_append_ws (fl : List Flow) (w1 w2 : List (ℕ × Flow)) :
    applyWrites fl (w1 ++ w2) = applyWrites (applyWrites fl w1) w2 :=
  List.foldl_append ..

theorem length_applyWrites (ws : List (ℕ × Flow)) (fl : List Flow) :
    (applyWrites fl ws).length = fl.length := by
  induction ws generalizing fl with
  | nil => rfl
  | cons w ws ih => rw [applyWrites_cons, ih, List.length_set]

theorem applyWrites_append_right (ws : List (ℕ × Flow)) (X Y : List Flow)
    (h : ∀ w ∈ ws, w.1 < X.length) :
    applyWrites (X ++ Y) ws = applyWrites X ws ++ Y := by
  induction ws generalizing X with
  | nil => rfl
  | cons w ws ih =>
    rw [applyWrites_cons, applyWrites_cons,
      List.set_append_left _ _ (h w (List.mem_cons_self ..)), ih]
    intro u hu
    rw [List.length_set]
    exact h u (List.mem_cons_of_mem _ hu)

theorem lastWriteVal_concat (ws : List (ℕ × Flow)) (w : ℕ × Flow) (p : ℕ) :
    lastWriteVal (ws ++ [w]) p = if w.1 = p then some w.2 else lastWriteVal ws p := by
  unfold lastWriteVal
  rw [List.foldl_append]
  rfl

theorem getElem?_applyWrites (ws : List (ℕ × Flow)) (X : List Flow) (p : ℕ) :
    (applyWrites X ws)[p]? =
      match lastWriteVal ws p with
      | some v => if p < X.length then some v else none
      | none => X[p]? := by
  induction ws using List.reverseRecOn generalizing p with
  | nil =>
    cases h : X[p]? <;> simp [applyWrites, lastWriteVal, h]
  | append_singleton ws w ih =>
    rw [applyWrites_append_ws, lastWriteVal_concat]
    have hset : applyWrites (applyWrites X ws) [w] = (applyWrites X ws).set w.1 w.2 := rfl
    rw [hset]
    by_cases hw : w.1 = p
    · subst hw
      by_cases hp : w.1 < X.length
      · have hp2 : w.1 < (applyWrites X ws).length := by rwa [length_applyWrites]
        rw [List.getElem?_set_eq_of_lt _ hp2]
        simp [hp]
      · have hp2 : (applyWrites X ws).length ≤ w.1 := by
          rw [length_applyWrites]; omega
        rw [List.set_eq_of_length_le hp2, ih]
        cases h : lastWriteVal ws w.1 <;> (simp [hp]; try omega)
    · rw [List.getElem?_set_ne hw, ih]
      simp [hw]

theorem applyWrites_self (X : List Flow) (ws : List (ℕ × Flow)) :
    applyWrites (applyWrites X ws) ws = applyWrites X ws := by
  apply List.ext_getElem?
  intro p
  rw [getElem?_applyWrites]
  cases h : lastWriteVal ws p with
  | none => rfl
  | some v =>
    rw [length_applyWrites, getElem?_applyWrites, h]

/-! ### The counter run, decomposed into core trace, writes and appends -/

theorem procFlow_start (step : ℕ) (d cmax : ℤ) (first : Bool) (F : Flow) :
    (procFlow step d cmax first F).1.start = F.start := by
  simp only [procFlow]
  split_ifs <;> rfl

theorem runFlows_starts (step : ℕ) (d : ℤ) :
    ∀ (l : List Flow) (cmax : ℤ) (first : Bool),
      (runFlows step d cmax first l).map (fun p => p.1.start) = l.map Flow.start
  | [], _, _ => rfl
  | F :: rest, cmax, first => by
    rw [runFlows]
    simp only [List.map_cons]
    rw [procFlow_start, runFlows_starts]

theorem activeOK_nil (s : ℕ) : ActiveOK s [] := by
  intro g hg
  cases hg

theorem out_start_mem (s : ℕ) (a : List Flow) (d : ℤ) (p : Flow × Bool)
    (hp : p ∈ runFlows (s + 1) d d true a) : p.1.start ∈ a.map Flow.start := by
  have h2 : p.1.start ∈ (runFlows (s + 1) d d true a).map (fun q => q.1.start) :=
    List.mem_map_of_mem _ hp
  rwa [runFlows_starts] at h2

theorem activeOK_step (s : ℕ) (a : List Flow) (d : ℤ) (h : ActiveOK s a) :
    ActiveOK (s + 1) (counter_step_core s a d).active := by
  intro g hg
  unfold counter_step_core at hg
  simp only [List.mem_append] at hg
  cases hg with
  | inl hmem =>
    obtain ⟨p, hp, rfl⟩ := List.mem_map.mp hmem
    have hps := out_start_mem s a d p (List.mem_of_mem_filter hp)
    obtain ⟨g0, hg0, he⟩ := List.mem_map.mp hps
    have hb := h g0 hg0
    refine ⟨by omega, by omega⟩
  | inr hmem =>
    simp only [List.mem_singleton] at hmem
    subst hmem
    exact ⟨Nat.succ_le_succ (Nat.zero_le s), Nat.le_refl (s + 1)⟩

theorem writes_bound_step (s : ℕ) (a : List Flow) (d : ℤ) (h : ActiveOK s a) :
    ∀ w ∈ (counter_step_core s a d).writes, w.1 + 1 ≤ s := by
  intro w hw
  unfold counter_step_core at hw
  simp only [List.mem_map] at hw
  obtain ⟨p, hp, rfl⟩ := hw
  have hps := out_start_mem s a d p hp
  obtain ⟨g0, hg0, he⟩ := List.mem_map.mp hps
  have hb := h g0 hg0
  dsimp only
  omega

theorem coreRun_writes_bound (D : List ℤ) :
    ∀ (s : ℕ) (a : List Flow), ActiveOK s a →
      ∀ w ∈ (coreRun s a D).writes, w.1 + 2 ≤ s + D.length := by
  induction D with
  | nil =>
    intro s a _ w hw
    cases hw
  | cons d D ih =>
    intro s a h w hw
    rw [coreRun] at hw
    simp only [List.mem_append] at hw
    have hstep : (counter_step_core s a d).step = s + 1 := rfl
    cases hw with
    | inl hw1 =>
      have := writes_bound_step s a d h w hw1
      simp only [List.length_cons]
      omega
    | inr hw2 =>
      have hok : ActiveOK (s + 1) (counter_step_core s a d).active := activeOK_step s a d h
      have := ih (s + 1) (counter_step_core s a d).active hok w (by rwa [hstep] at hw2)
      simp only [List.length_cons]
      omega

theorem coreRun_appends_len (D : List ℤ) :
    ∀ (s : ℕ) (a : List Flow), (coreRun s a D).appends.length = D.length := by
  induction D with
  | nil => intro s a; rfl
  | cons d D ih =>
    intro s a
    rw [coreRun]
    simp only [List.length_cons]
    rw [ih]

theorem coreRun_appends_flat (D : List ℤ) :
    ∀ (s : ℕ) (a : List Flow), ∀ f ∈ (coreRun s a D).appends, f.sv = f.ev := by
  induction D with
  | nil =>
    intro s a f hf
    cases hf
  | cons d D ih =>
    intro s a f hf
    rw [coreRun] at hf
    rcases List.mem_cons.mp hf with h1 | h2
    · subst h1; rfl
    · exact ih _ _ f h2

theorem counter_step_eq (s : ℕ) (fl a : List Flow) (d : ℤ) :
    counter_step ⟨s, fl, a⟩ d =
      ⟨(counter_step_core s a d).step,
        applyWrites fl (counter_step_core s a d).writes ++ [(counter_step_core s a d).newFlow],
        (counter_step_core s a d).active⟩ := rfl

theorem coreRun_cons (s : ℕ) (a : List Flow) (d : ℤ) (D : List ℤ) :
    coreRun s a (d :: D) =
      ⟨(coreRun (s + 1) (counter_step_core s a d).active D).stepF,
        (coreRun (s + 1) (counter_step_core s a d).active D).activeF,
        (counter_step_core s a d).writes ++ (coreRun (s + 1) (counter_step_core s a d).active D).writes,
        (counter_step_core s a d).newFlow :: (coreRun (s + 1) (counter_step_core s a d).active D).appends⟩ := rfl

theorem runFrom_cons (s : ℕ) (fl a : List Flow) (d : ℤ) (D : List ℤ) :
    runFrom ⟨s, fl, a⟩ (d :: D) =
      runFrom ⟨s + 1,
        applyWrites fl (counter_step_core s a d).writes ++ [(counter_step_core s a d).newFlow],
        (counter_step_core s a d).active⟩ D := rfl

/-- The incremental run from a flows list that has exactly one slot per past
step: the final flows list is the appends overwritten by all the writes. -/
theorem runFrom_flows_incr (D : List ℤ) :
    ∀ (s : ℕ) (fl a : List Flow), ActiveOK s a → fl.length = s →
      (runFrom ⟨s, fl, a⟩ D).flows =
        applyWrites (fl ++ (coreRun s a D).appends) (coreRun s a D).writes := by
  induction D with
  | nil =>
    intro s fl a _ _
    simp [runFrom, coreRun, applyWrites]
  | cons d D ih =>
    intro s fl a hok hlen
    rw [runFrom_cons, coreRun_cons]
    dsimp only
    revert hok hlen
    generalize hW : (counter_step_core s a d).writes = W
    generalize hO : (counter_step_core s a d).newFlow = O
    generalize hA : (counter_step_core s a d).active = A1
    intro hok hlen
    have hok1 : ActiveOK (s + 1) A1 := by rw [← hA]; exact activeOK_step s a d hok
    have hlen1 : (applyWrites fl W ++ [O]).length = s + 1 := by
      rw [List.length_append, length_applyWrites, hlen]
      rfl
    rw [ih (s + 1) (applyWrites fl W ++ [O]) A1 hok1 hlen1]
    rw [applyWrites_append_ws]
    have hb : ∀ w ∈ W, w.1 < fl.length := by
      intro w hw
      rw [← hW] at hw
      have := writes_bound_step s a d hok w hw
      omega
    have hbase : applyWrites (fl ++ O :: (coreRun (s + 1) A1 D).appends) W =
        (applyWrites fl W ++ [O]) ++ (coreRun (s + 1) A1 D).appends := by
      rw [applyWrites_append_right W fl (O :: (coreRun (s + 1) A1 D).appends) hb]
      simp [List.append_assoc]
    rw [hbase]

/-- The replay run over a long enough base list: all writes land inside the
base, the appends pile up behind it. -/
theorem runFrom_flows_replay (D : List ℤ) :
    ∀ (s : ℕ) (B a : List Flow), ActiveOK s a → s + D.length ≤ B.length →
      (runFrom ⟨s, B, a⟩ D).flows =
        applyWrites B (coreRun s a D).writes ++ (coreRun s a D).appends := by
  induction D with
  | nil =>
    intro s B a _ _
    simp [runFrom, coreRun, applyWrites]
  | cons d D ih =>
    intro s B a hok hlen
    rw [runFrom_cons, coreRun_cons]
    dsimp only
    revert hok hlen
    generalize hW : (counter_step_core s a d).writes = W
    generalize hO : (counter_step_core s a d).newFlow = O
    generalize hA : (counter_step_core s a d).active = A1
    intro hok hlen
    have hok1 : ActiveOK (s + 1) A1 := by rw [← hA]; exact activeOK_step s a d hok
    have hlen1 : s + 1 + D.length ≤ (applyWrites B W ++ [O]).length := by
      rw [List.length_append, length_applyWrites]
      simp only [List.length_cons] at hlen
      simp only [List.length_singleton]
      omega
    rw [ih (s + 1) (applyWrites B W ++ [O]) A1 hok1 hlen1]
    rw [applyWrites_append_ws]
    have hb : ∀ w ∈ (coreRun (s + 1) A1 D).writes, w.1 < (applyWrites B W).length := by
      intro w hw
      have := coreRun_writes_bound D (s + 1) A1 hok1 w hw
      rw [length_applyWrites]
      simp only [List.length_cons] at hlen
      omega
    rw [applyWrites_append_right _ _ [O] hb]
    rw [List.append_assoc]
    rfl

/-! ### Sorting and histogram facts about get_cycles -/

theorem sortPairs_perm (l : List (ℕ × ℚ)) : List.Perm (sortPairs l) l :=
  List.perm_insertionSort lexLe l

theorem sortPairs_sorted (l : List (ℕ × ℚ)) : List.Sorted lexLe (sortPairs l) :=
  List.sorted_insertionSort lexLe l

theorem sortPairs_eq_of_sorted {l : List (ℕ × ℚ)} (h : List.Sorted lexLe l) :
    sortPairs l = l :=
  List.eq_of_perm_of_sorted (sortPairs_perm l) (sortPairs_sorted l) h

theorem bump_map_fst (cs : List (ℕ × ℚ)) (r : ℕ) :
    (bump cs r).map Prod.fst = cs.map Prod.fst := by
  induction cs with
  | nil => rfl
  | cons c cs ih =>
    rw [bump]
    split
    · simp
    · simp [ih]

theorem countAt_nil (r : ℕ) : countAt [] r = 0 := rfl

theorem countAt_cons (c : ℕ × ℚ) (cs : List (ℕ × ℚ)) (r : ℕ) :
    countAt (c :: cs) r = (if c.1 = r then c.2 else 0) + countAt cs r := by
  unfold countAt
  by_cases h : c.1 = r <;> simp [List.filter_cons, h]

theorem countAt_append (l1 l2 : List (ℕ × ℚ)) (r : ℕ) :
    countAt (l1 ++ l2) r = countAt l1 r + countAt l2 r := by
  unfold countAt
  rw [List.filter_append, List.map_append, List.sum_append]

theorem countAt_perm {l1 l2 : List (ℕ × ℚ)} (h : List.Perm l1 l2) (r : ℕ) :
    countAt l1 r = countAt l2 r :=
  ((h.filter _).map _).sum_eq

theorem sumCounts_perm {l1 l2 : List (ℕ × ℚ)} (h : List.Perm l1 l2) :
    sumCounts l1 = sumCounts l2 :=
  (h.map _).sum_eq

theorem sumCounts_append (l1 l2 : List (ℕ × ℚ)) :
    sumCounts (l1 ++ l2) = sumCounts l1 + sumCounts l2 := by
  unfold sumCounts
  rw [List.map_append, List.sum_append]

theorem countAt_eq_zero_of_not_mem (cs : List (ℕ × ℚ)) (r : ℕ)
    (h : r ∉ cs.map Prod.fst) : countAt cs r = 0 := by
  induction cs with
  | nil => rfl
  | cons c cs ih =>
    rw [countAt_cons]
    simp only [List.map_cons, List.mem_cons] at h
    push_neg at h
    rw [if_neg (fun he => h.1 he.symm), ih h.2]
    ring

theorem countAt_bump_mem (cs : List (ℕ × ℚ)) (r : ℕ) (h : r ∈ cs.map Prod.fst) :
    countAt (bump cs r) r = countAt cs r + 1/2 := by
  induction cs with
  | nil => cases h
  | cons c cs ih =>
    rw [bump]
    by_cases hc : c.1 = r
    · rw [if_pos hc, countAt_cons, countAt_cons, if_pos hc, if_pos hc]
      ring
    · rw [if_neg hc, countAt_cons, countAt_cons]
      have hmem : r ∈ cs.map Prod.fst := by
        simp only [List.map_cons, List.mem_cons] at h
        rcases h with he | hm
        · exact absurd he.symm hc
        · exact hm
      rw [ih hmem]
      ring

theorem countAt_bump_ne (cs : List (ℕ × ℚ)) (r q : ℕ) (h : q ≠ r) :
    countAt (bump cs r) q = countAt cs q := by
  induction cs with
  | nil => rfl
  | cons c cs ih =>
    rw [bump]
    by_cases hc : c.1 = r
    · rw [if_pos hc, countAt_cons, countAt_cons]
      have hne : ¬ (c.1 = q) := fun he => h (he.symm.trans hc)
      simp [hne]
    · rw [if_neg hc, countAt_cons, countAt_cons, ih]

theorem sumCounts_bump (cs : List (ℕ × ℚ)) (r : ℕ) (h : r ∈ cs.map Prod.fst) :
    sumCounts (bump cs r) = sumCounts cs + 1/2 := by
  induction cs with
  | nil => cases h
  | cons c cs ih =>
    rw [bump]
    by_cases hc : c.1 = r
    · rw [if_pos hc]
      unfold sumCounts
      simp only [List.map_cons, List.sum_cons]
      ring
    · rw [if_neg hc]
      have hmem : r ∈ cs.map Prod.fst := by
        simp only [List.map_cons, List.mem_cons] at h
        rcases h with he | hm
        · exact absurd he.symm hc
        · exact hm
      unfold sumCounts at ih ⊢
      simp only [List.map_cons, List.sum_cons]
      rw [ih hmem]
      ring

theorem histCount_concat (l : List Flow) (f : Flow) (r : ℕ) :
    histCount (l ++ [f]) r = histCount l r + (if rangeOf f = r then 1 else 0) := by
  unfold histCount
  rw [List.countP_append]
  simp [List.countP_cons]

theorem nzCount_concat (l : List Flow) (f : Flow) :
    nzCount (l ++ [f]) = nzCount l + (if rangeOf f = 0 then 0 else 1) := by
  unfold nzCount
  rw [List.countP_append]
  by_cases h : rangeOf f = 0 <;> simp [List.countP_cons, h]

theorem cyclesStep_eq (cs : List (ℕ × ℚ)) (f : Flow) :
    cyclesStep cs f =
      sortPairs (if (cs.map Prod.fst).contains (rangeOf f) then bump cs (rangeOf f)
        else if 0 < rangeOf f then cs ++ [(rangeOf f, 1/2)] else cs) := rfl

/-- The loop invariant of get_cycles, over any flow list: the result is
lexicographically sorted, has no zero range, has pairwise distinct ranges,
registers half the number of matching flows at every nonzero range, and its
total count is half the number of nonzero-range flows. -/
theorem cycles_fold_inv (l : List Flow) :
    List.Sorted lexLe (l.foldl cyclesStep []) ∧
    (∀ e ∈ l.foldl cyclesStep [], e.1 ≠ 0) ∧
    ((l.foldl cyclesStep []).map Prod.fst).Nodup ∧
    (∀ r : ℕ, countAt (l.foldl cyclesStep []) r =
      if r = 0 then 0 else (histCount l r : ℚ) / 2) ∧
    2 * sumCounts (l.foldl cyclesStep []) = (nzCount l : ℚ) := by
  induction l using List.reverseRecOn with
  | nil =>
    simp only [List.foldl_nil]
    refine ⟨List.sorted_nil, by simp, by simp, ?_, by simp [sumCounts, nzCount]⟩
    intro r
    rw [countAt_nil]
    unfold histCount
    split <;> simp
  | append_singleton l f ih =>
    obtain ⟨hs, hnz, hnd, hcnt, hsum⟩ := ih
    rw [List.foldl_append]
    simp only [List.foldl_cons, List.foldl_nil]
    rw [cyclesStep_eq]
    by_cases hmem : rangeOf f ∈ (l.foldl cyclesStep []).map Prod.fst
    · -- existing bin: bump it
      rw [if_pos (by simpa using hmem)]
      have hr0 : rangeOf f ≠ 0 := by
        obtain ⟨e, he, hfst⟩ := List.mem_map.mp hmem
        exact hfst ▸ hnz e he
      refine ⟨sortPairs_sorted _, ?_, ?_, ?_, ?_⟩
      · intro e hme
        have he2 : e ∈ bump (l.foldl cyclesStep []) (rangeOf f) :=
          (List.mem_insertionSort _).mp hme
        have : e.1 ∈ (bump (l.foldl cyclesStep []) (rangeOf f)).map Prod.fst :=
          List.mem_map_of_mem _ he2
        rw [bump_map_fst] at this
        obtain ⟨e0, he0, hfst⟩ := List.mem_map.mp this
        exact hfst ▸ hnz e0 he0
      · have hperm := (sortPairs_perm (bump (l.foldl cyclesStep []) (rangeOf f))).map Prod.fst
        rw [hperm.nodup_iff, bump_map_fst]
        exact hnd
      · intro r
        rw [countAt_perm (sortPairs_perm _) r]
        by_cases hr : r = rangeOf f
        · rw [hr, countAt_bump_mem _ _ hmem, hcnt (rangeOf f), histCount_concat, if_pos rfl,
            if_neg hr0, if_neg hr0]
          push_cast
          ring
        · rw [countAt_bump_ne _ _ _ hr, hcnt r, histCount_concat,
            if_neg (show ¬ (rangeOf f = r) from fun he => hr he.symm)]
          split <;> simp
      · rw [sumCounts_perm (sortPairs_perm _), sumCounts_bump _ _ hmem, nzCount_concat,
          if_neg hr0]
        push_cast
        linarith
    · rw [if_neg (by simpa using hmem)]
      by_cases hpos : 0 < rangeOf f
      · -- new bin appended
        rw [if_pos hpos]
        have hzero : countAt (l.foldl cyclesStep []) (rangeOf f) = 0 :=
          countAt_eq_zero_of_not_mem _ _ hmem
        refine ⟨sortPairs_sorted _, ?_, ?_, ?_, ?_⟩
        · intro e hme
          have he2 := (List.mem_insertionSort _).mp hme
          rcases List.mem_append.mp he2 with hin | hnew
          · exact hnz e hin
          · simp only [List.mem_singleton] at hnew
            subst hnew
            show rangeOf f ≠ 0
            omega
        · have hperm := (sortPairs_perm ((l.foldl cyclesStep []) ++ [(rangeOf f, 1/2)])).map Prod.fst
          rw [hperm.nodup_iff, List.map_append, List.nodup_append]
          refine ⟨hnd, List.nodup_singleton _, ?_⟩
          intro x hx hx2
          simp only [List.map_singleton, List.mem_singleton] at hx2
          subst hx2
          exact hmem hx
        · intro r
          rw [countAt_perm (sortPairs_perm _) r, countAt_append, countAt_cons, countAt_nil]
          by_cases hr : r = rangeOf f
          · have h1 : (histCount l (rangeOf f) : ℚ) = 0 := by
              have hc := hcnt (rangeOf f)
              rw [if_neg (by omega), hzero] at hc
              linarith
            rw [hr, hzero, histCount_concat, if_pos rfl, if_neg (by omega)]
            push_cast
            simp [h1]
          · rw [hcnt r, histCount_concat, if_neg (fun he : rangeOf f = r => hr he.symm)]
            have hne2 : ¬ ((rangeOf f, (1 : ℚ)/2).1 = r) := fun he => hr he.symm
            rw [if_neg hne2]
            split <;> simp
        · rw [sumCounts_perm (sortPairs_perm _), sumCounts_append, nzCount_concat,
            if_neg (by omega)]
          unfold sumCounts at hsum ⊢
          simp only [List.map_cons, List.map_nil, List.sum_cons, List.sum_nil]
          push_cast
          linarith
      · -- zero range: nothing happens
        rw [if_neg hpos]
        have hr0 : rangeOf f = 0 := by omega
        rw [sortPairs_eq_of_sorted hs]
        refine ⟨hs, hnz, hnd, ?_, ?_⟩
        · intro r
          rw [hcnt r, histCount_concat, hr0]
          by_cases hr : r = 0
          · simp [hr]
          · rw [if_neg (fun he : (0 : ℕ) = r => hr he.symm)]
            simp [hr]
        · rw [hsum, nzCount_concat, hr0]
          simp

/-- A zero-range flow leaves a well-formed cycles list unchanged. -/
theorem cyclesStep_flat (cs : List (ℕ × ℚ)) (f : Flow)
    (hs : List.Sorted lexLe cs) (hnz : ∀ e ∈ cs, e.1 ≠ 0) (hf : f.sv = f.ev) :
    cyclesStep cs f = cs := by
  have hr : rangeOf f = 0 := by
    unfold rangeOf
    rw [hf]
    simp
  rw [cyclesStep_eq]
  have hnm : rangeOf f ∉ cs.map Prod.fst := by
    rw [hr]
    intro hm
    obtain ⟨e, he, hfst⟩ := List.mem_map.mp hm
    exact hnz e he hfst
  rw [if_neg (by simpa using hnm), if_neg (by omega), sortPairs_eq_of_sorted hs]

theorem foldl_cyclesStep_flat (T : List Flow) :
    ∀ (cs : List (ℕ × ℚ)), List.Sorted lexLe cs → (∀ e ∈ cs, e.1 ≠ 0) →
      (∀ f ∈ T, f.sv = f.ev) → T.foldl cyclesStep cs = cs := by
  induction T with
  | nil =>
    intro cs _ _ _
    rfl
  | cons f T ih =>
    intro cs hs hnz hT
    rw [List.foldl_cons, cyclesStep_flat cs f hs hnz (hT f (List.mem_cons_self ..))]
    exact ih cs hs hnz (fun g hg => hT g (List.mem_cons_of_mem _ hg))

/-- Appending zero-range records after a flows list that itself ends in a
zero-range record does not change the histogram. -/
theorem get_cycles_flat_tail (X : List Flow) (o : Flow) (ho : o.sv = o.ev)
    (T : List Flow) (hT : ∀ f ∈ T, f.sv = f.ev) :
    get_cycles ((X ++ [o]) ++ T) = get_cycles (X ++ [o]) := by
  obtain ⟨hs, hnz, _, _, _⟩ := cycles_fold_inv X
  cases T with
  | nil => rw [List.append_nil]
  | cons t T2 =>
    unfold get_cycles
    rw [List.dropLast_append_of_ne_nil _ (by simp), List.foldl_append, List.dropLast_concat]
    have h3 : (X ++ [o]).foldl cyclesStep [] = X.foldl cyclesStep [] := by
      rw [List.foldl_append]
      simp only [List.foldl_cons, List.foldl_nil]
      exact cyclesStep_flat _ o hs hnz ho
    rw [h3]
    refine foldl_cyclesStep_flat _ _ hs hnz ?_
    intro g hg
    exact hT g ((List.dropLast_sublist (t :: T2)).subset hg)

theorem runFrom_concat (st : RState) (D : List ℤ) (p : ℤ) :
    runFrom st (D ++ [p]) = counter_step (runFrom st D) p := by
  unfold runFrom
  rw [List.foldl_append]
  rfl

/-- Observing raw samples from a fresh RFCA is, on the counter part, exactly
the counter run over the retained data list. -/
theorem observeAll_rain (samples : List ℚ) :
    rain (observeAll samples) = runFrom ⟨0, [], []⟩ (observeAll samples).data := by
  induction samples using List.reverseRecOn with
  | nil => rfl
  | append_singleton samples x ih =>
    have h1 : observeAll (samples ++ [x]) = (update_if_peak (observeAll samples) x).1 := by
      unfold observeAll
      rw [List.foldl_append]
      rfl
    rw [h1]
    unfold update_if_peak
    split
    · show counter_step (rain (observeAll samples)) (pyRound (observeAll samples).Atmp0) =
        runFrom ⟨0, [], []⟩ ((observeAll samples).data ++ [pyRound (observeAll samples).Atmp0])
      rw [runFrom_concat, ← ih]
    · show rain (observeAll samples) = runFrom ⟨0, [], []⟩ (observeAll samples).data
      exact ih

/-- The replay facts at the level of rounded peak lists: replay leaves the
incrementally-built flows list as a prefix, appending one zero-range open
record per peak, and the histogram is unchanged. -/
theorem replay_general (D : List ℤ) :
    (runFrom ⟨0, (runFrom ⟨0, [], []⟩ D).flows, []⟩ D).flows =
      (runFrom ⟨0, [], []⟩ D).flows ++ (coreRun 0 [] D).appends ∧
    (∀ f ∈ (coreRun 0 [] D).appends, f.sv = f.ev) ∧
    get_cycles ((runFrom ⟨0, [], []⟩ D).flows ++ (coreRun 0 [] D).appends) =
      get_cycles ((runFrom ⟨0, [], []⟩ D).flows) := by
  have hF : (runFrom ⟨0, [], []⟩ D).flows =
      applyWrites (coreRun 0 [] D).appends (coreRun 0 [] D).writes := by
    have := runFrom_flows_incr D 0 [] [] (activeOK_nil 0) rfl
    rwa [List.nil_append] at this
  have hlenO : (coreRun 0 [] D).appends.length = D.length := coreRun_appends_len D 0 []
  have hlenF : (runFrom ⟨0, [], []⟩ D).flows.length = D.length := by
    rw [hF, length_applyWrites, hlenO]
  have hflat : ∀ f ∈ (coreRun 0 [] D).appends, f.sv = f.ev := coreRun_appends_flat D 0 []
  have hreplay : (runFrom ⟨0, (runFrom ⟨0, [], []⟩ D).flows, []⟩ D).flows =
      (runFrom ⟨0, [], []⟩ D).flows ++ (coreRun 0 [] D).appends := by
    rw [runFrom_flows_replay D 0 _ [] (activeOK_nil 0) (by omega)]
    congr 1
    rw [hF, applyWrites_self]
  refine ⟨hreplay, hflat, ?_⟩
  by_cases hD : D = []
  · subst hD
    have hnil : (coreRun 0 ([] : List Flow) ([] : List ℤ)).appends = [] := rfl
    rw [hnil, List.append_nil]
  · have hne : (coreRun 0 [] D).appends ≠ [] := by
      intro hemp
      rw [hemp] at hlenO
      simp only [List.length_nil] at hlenO
      exact hD (List.eq_nil_of_length_eq_zero hlenO.symm)
    obtain ⟨O2, oLast, hO⟩ : ∃ O2 oLast, (coreRun 0 [] D).appends = O2 ++ [oLast] := by
      refine ⟨(coreRun 0 [] D).appends.dropLast, (coreRun 0 [] D).appends.getLast hne, ?_⟩
      rw [List.dropLast_append_getLast hne]
    have holast : oLast.sv = oLast.ev := by
      refine hflat oLast ?_
      rw [hO]
      exact List.mem_append_right _ (List.mem_singleton.mpr rfl)
    have hlen2 : O2.length + 1 = D.length := by
      have h5 := congrArg List.length hO
      rw [hlenO] at h5
      simp at h5
      omega
    have hXsplit : (runFrom ⟨0, [], []⟩ D).flows =
        applyWrites O2 (coreRun 0 [] D).writes ++ [oLast] := by
      rw [hF, hO]
      refine applyWrites_append_right _ _ _ ?_
      intro w hw
      have hb := coreRun_writes_bound D 0 [] (activeOK_nil 0) w hw
      omega
    rw [hXsplit, hO]
    rw [get_cycles_flat_tail (applyWrites O2 (coreRun 0 [] D).writes) oLast holast
      (O2 ++ [oLast]) (by rw [← hO]; exact hflat)]

/-! ### Claim theorems for the rainflow counter -/

/-- C1 (amended): for every finite raw sample sequence fed incrementally
through observe from a fresh counter, the cycle histogram after one replay
over the retained peak history equals the incrementally computed histogram;
the replayed flows list is the incremental flows list followed by zero-range
records only, so the cycle set is preserved even though the flow list is not
reproduced identically. -/
theorem C1_replay_cycles_eq (samples : List ℚ) :
    get_cycles ((rerun (observeAll samples)).flows) = get_cycles ((observeAll samples).flows) ∧
    ∃ T, (rerun (observeAll samples)).flows = (observeAll samples).flows ++ T ∧
      ∀ f ∈ T, f.sv = f.ev := by
  have hbr := observeAll_rain samples
  have hflows : (observeAll samples).flows =
      (runFrom ⟨0, [], []⟩ (observeAll samples).data).flows :=
    congrArg RState.flows hbr
  have hrr : (rerun (observeAll samples)).flows =
      (runFrom ⟨0, (observeAll samples).flows, []⟩ (observeAll samples).data).flows := rfl
  obtain ⟨h1, h2, h3⟩ := replay_general (observeAll samples).data
  constructor
  · rw [hrr, hflows, h1, h3]
  · refine ⟨(coreRun 0 [] (observeAll samples).data).appends, ?_, h2⟩
    rw [hrr, hflows, h1]

/-- C1, second half, as stated, is false: replay() does not reproduce an
identical flow list. On the raw samples [5, 10, 3] the incremental run
retains peaks [0, 10] and two flow records; replay leaves those two records
unchanged in place but appends two more zero-range open records. -/
theorem C1_flows_not_reproduced :
    (rerun (observeAll [5, 10, 3])).flows ≠ (observeAll [5, 10, 3]).flows := by
  with_unfolding_all decide

/-- C3 (amended): get_cycles aggregates over all flows except the last
registered one, open or closed alike: the result is strictly sorted by
range, contains no zero range, and registers 0.5 per flow with that rounded
range among fl.dropLast. -/
theorem C3_get_cycles_characterization (fl : List Flow) :
    List.Sorted (fun a b : ℕ × ℚ => a.1 < b.1) (get_cycles fl) ∧
    (∀ e ∈ get_cycles fl, e.1 ≠ 0) ∧
    (∀ r : ℕ, r ≠ 0 → countAt (get_cycles fl) r = (histCount fl.dropLast r : ℚ) / 2) ∧
    countAt (get_cycles fl) 0 = 0 := by
  obtain ⟨hs, hnz, hnd, hcnt, _⟩ := cycles_fold_inv fl.dropLast
  refine ⟨?_, hnz, ?_, ?_⟩
  · have hpair : List.Pairwise (fun a b : ℕ × ℚ => a.1 ≠ b.1) (get_cycles fl) :=
      List.pairwise_map.mp hnd
    have hcomb := List.Pairwise.and hs hpair
    refine hcomb.imp ?_
    intro a b hab
    rcases hab with ⟨hl, hne⟩
    rcases hl with hlt | ⟨heq, _⟩
    · exact hlt
    · exact absurd heq hne
  · intro r hr
    have hc := hcnt r
    rwa [if_neg hr] at hc
  · have hc := hcnt 0
    rwa [if_pos rfl] at hc

/-- C3, as stated, is false: cycles() is not an aggregation over closed flows
only. After observing the raw samples [5, 10, 3] both retained flows are
still in the active set (none is closed), yet cycles() reports the bin
(10, 0.5) from the still-open first flow; the spec-worded histogram over
closed flows is empty. -/
theorem C3_open_flows_are_counted :
    get_cycles (observeAll [5, 10, 3]).flows ≠
      specCycles (observeAll [5, 10, 3]).flows (observeAll [5, 10, 3]).active := by
  with_unfolding_all decide

/-- C4 (amended): for every counter state, twice the total count summed over
all ranges returned by cycles() equals the number of nonzero-range flows
among all but the last registered flow. -/
theorem C4_half_cycle_total_law (fl : List Flow) :
    2 * sumCounts (get_cycles fl) = (nzCount fl.dropLast : ℚ) := by
  obtain ⟨_, _, _, _, hsum⟩ := cycles_fold_inv fl.dropLast
  exact hsum

/-- C4, as stated, is false: after observing the raw samples [2, 9, 1] the
total count is 0.5 but no flow is closed, so twice the closed-flow count
is 0. -/
theorem C4_closed_flow_count_fails :
    sumCounts (get_cycles (observeAll [2, 9, 1]).flows) ≠
      2 * ((closedFlows (observeAll [2, 9, 1]).flows (observeAll [2, 9, 1]).active).length : ℚ) := by
  with_unfolding_all decide

/-- C9 (amended): observe confirms a peak exactly when the buffered most
recent sample is weakly below its predecessor and strictly below the new
sample, or weakly above its predecessor and strictly above the new sample
(weak on the buffered pair, strict against the new sample); on confirmation
the rounded buffered sample is appended to the history and the counter step
runs on it; otherwise the history is unchanged; the buffer always shifts. -/
theorem C9_observe_characterization (st : RFCAState) (x : ℚ) :
    ((update_if_peak st x).2 = true ↔
      ((st.Atmp0 ≤ st.Atmp1 ∧ st.Atmp0 < x) ∨ (st.Atmp1 ≤ st.Atmp0 ∧ x < st.Atmp0))) ∧
    ((update_if_peak st x).2 = true →
      (update_if_peak st x).1 =
        { withRain st (counter_step (rain st) (pyRound st.Atmp0)) with
            data := st.data ++ [pyRound st.Atmp0], Atmp0 := x, Atmp1 := st.Atmp0 }) ∧
    ((update_if_peak st x).2 = false →
      (update_if_peak st x).1 = { st with Atmp0 := x, Atmp1 := st.Atmp0 }) := by
  unfold update_if_peak
  split
  · next h => exact ⟨by simpa using h, fun _ => rfl, by simp⟩
  · next h => exact ⟨by simpa using h, by simp, fun _ => rfl⟩

/-- C9 witness: on the initial state (flat buffer [0, 0]) and new sample 7,
the characterization applies and observe reports a peak. -/
theorem C9_observe_characterization_witness : (update_if_peak rfcaInit 7).2 = true :=
  (C9_observe_characterization rfcaInit 7).1.mpr (Or.inl (by decide))

/-- C9, as stated, is false: from the initial state the buffered pair is flat
(0, 0), so the trend has not strictly reversed when sample 7 arrives, yet
observe returns true (and registers a peak at 0). -/
theorem C9_flat_pair_confirms :
    ¬ strictReversal rfcaInit.Atmp0 rfcaInit.Atmp1 7 ∧
      (update_if_peak rfcaInit 7).2 = true := by
  with_unfolding_all decide

/-! ### Claim theorems for the controller and the service ticks -/

theorem checkedDiv_ok (a b : ℚ) (h : b ≠ 0) : checkedDiv a b = Except.ok (a / b) :=
  if_neg h

theorem checkedAsin_ok (asinF : ℚ → ℚ) (x : ℚ) (h : |x| ≤ 1) :
    checkedAsin asinF x = Except.ok (asinF x) :=
  if_pos h

/-- C5 (amended): for every input state and every parameter set with nonzero
amplitude and nonzero angular frequency, bench_ODE raises no numeric error:
the asin domain guard and the zero-velocity fallback make every remaining
checked operation succeed, so the function is total there. With amplitude 0
the guard expression s/s0 itself divides by zero, and with omega 0 the
divisions asin(q)/omega and pi/omega do. -/
theorem C5_bench_ODE_total (sinF cosF asinF : ℚ → ℚ) (piQ s v s0 omega vmax amax : ℚ)
    (hs0 : s0 ≠ 0) (hom : omega ≠ 0) :
    ∃ out, bench_ODE sinF cosF asinF piQ s v s0 omega vmax amax = Except.ok out := by
  unfold bench_ODE
  rw [checkedDiv_ok s s0 hs0]
  dsimp only
  by_cases hq : |s / s0| ≤ 1
  · rw [if_pos hq, checkedAsin_ok asinF _ hq]
    dsimp only
    rw [checkedDiv_ok _ omega hom]
    dsimp only
    by_cases hv : 0 ≤ v
    · rw [if_pos hv]
      dsimp only
      by_cases hv0 : v = 0
      · rw [if_pos hv0]
        exact ⟨_, rfl⟩
      · rw [if_neg hv0, checkedDiv_ok _ v hv0]
        exact ⟨_, rfl⟩
    · rw [if_neg hv, checkedDiv_ok piQ omega hom]
      dsimp only
      by_cases hv0 : v = 0
      · rw [if_pos hv0]
        exact ⟨_, rfl⟩
      · rw [if_neg hv0, checkedDiv_ok _ v hv0]
        exact ⟨_, rfl⟩
  · rw [if_neg hq]
    dsimp only
    by_cases hv : 0 ≤ v
    · rw [if_pos hv]
      dsimp only
      by_cases hv0 : v = 0
      · rw [if_pos hv0]
        exact ⟨_, rfl⟩
      · rw [if_neg hv0, checkedDiv_ok _ v hv0]
        exact ⟨_, rfl⟩
    · rw [if_neg hv, checkedDiv_ok piQ omega hom]
      dsimp only
      by_cases hv0 : v = 0
      · rw [if_pos hv0]
        exact ⟨_, rfl⟩
      · rw [if_neg hv0, checkedDiv_ok _ v hv0]
        exact ⟨_, rfl⟩

/-- C5 witness: at state (0, 0) with amplitude 1, frequency 1, the derivative
evaluates without error. -/
theorem C5_bench_ODE_total_witness :
    ∃ out, bench_ODE (fun x => x) (fun x => x) (fun x => x) 3 0 0 1 1 1 1 =
      Except.ok out :=
  C5_bench_ODE_total (fun x => x) (fun x => x) (fun x => x) 3 0 0 1 1 1 1
    (by norm_num) (by norm_num)

/-- C5, as stated, is false: with amplitude 0 the very first expression
abs(s / s0) of the guard raises ZeroDivisionError, for any velocity. -/
theorem C5_zero_amplitude_error :
    bench_ODE (fun x => x) (fun x => x) (fun x => x) 3 1 0 0 1 1 1 =
      Except.error NumErr.divByZero := rfl

/-- C6: on observed position 0 with amplitude 2 and angular frequency 1/2,
calibrate writes velocity amplitude*omega^2*cos(omega ts) = 1/2, while the
claimed phase-law velocity v0*cos(omega ts) with v0 = amplitude*omega is 1:
the code multiplies one extra factor of omega (line 183 of
actuator_controller.py, v0 * omega * cos(...)), which contradicts the
reference law v_target = v0 * cos(omega ts) computed by bench_ODE itself. -/
theorem C6_calibrate_velocity_mismatch (asinF cosF : ℚ → ℚ)
    (hA : asinF 0 = 0) (hC : cosF 0 = 1) :
    (calibrate asinF cosF 3 acBase 0).V = 1/2 ∧
      resync_velocity_spec asinF cosF 3 acBase 0 = 1 := by
  unfold calibrate resync_velocity_spec acBase
  norm_num [hA, hC]

/-- C6 witness: concrete trigonometric stand-ins satisfying asin 0 = 0 and
cos 0 = 1. -/
theorem C6_calibrate_velocity_mismatch_witness :
    (calibrate (fun x => x) (fun _ => 1) 3 acBase 0).V = 1/2 ∧
      resync_velocity_spec (fun x => x) (fun _ => 1) 3 acBase 0 = 1 :=
  C6_calibrate_velocity_mismatch (fun x => x) (fun _ => 1) rfl rfl

/-- C2: after every pf_state call (hence after every pf_step) on a cloud
that ends up with at least one particle, the weights are reset to the
uniform distribution, so they sum to exactly 1 - in particular within the
1e-9 tolerance. Quantified over all noise, likelihood, propagation and
resampling oracles. -/
theorem C2_pf_weights_sum_one (expF : ℚ → ℚ) (noises : List (ℚ × ℚ))
    (propg : ℚ × ℚ → ℕ → ℚ × ℚ) (resamp : List ℚ → List ℕ) (stdFn : List ℚ → ℚ)
    (st : ACState) (rState : ℚ) (numParticles : ℕ) (obsNoise sNoise vNoise : ℚ)
    (hN : 1 ≤ if st.particles.isEmpty then numParticles else st.particles.length) :
    ((pf_state expF noises propg resamp stdFn st rState numParticles obsNoise sNoise
        vNoise).1.weights).sum = 1 ∧
    |((pf_state expF noises propg resamp stdFn st rState numParticles obsNoise sNoise
        vNoise).1.weights).sum - 1| ≤ 1 / 1000000000 := by
  have hrep : ∀ (n : ℕ), 1 ≤ n → (List.replicate n ((1 : ℚ) / n)).sum = 1 := by
    intro n hn
    rw [List.sum_replicate, nsmul_eq_mul, mul_one_div, div_self]
    exact Nat.cast_ne_zero.mpr (by omega)
  have hsum : ((pf_state expF noises propg resamp stdFn st rState numParticles obsNoise
      sNoise vNoise).1.weights).sum = 1 := by
    unfold pf_state pf_step
    dsimp only
    by_cases he : st.particles.isEmpty
    · rw [if_pos he]
      dsimp only
      rw [List.length_replicate]
      refine hrep _ ?_
      simpa [he] using hN
    · rw [if_neg he]
      refine hrep _ ?_
      simpa [he] using hN
  refine ⟨hsum, ?_⟩
  rw [hsum]
  norm_num

/-- C2 witness: one lazy-initialized particle, trivial oracles. -/
theorem C2_pf_weights_sum_one_witness :
    ((pf_state (fun _ => 1) [(1, 0)] (fun p _ => p) (fun _ => [0]) (fun _ => 0)
        acBase 5 1 1 (1/1000) (1/1000)).1.weights).sum = 1 :=
  (C2_pf_weights_sum_one (fun _ => 1) [(1, 0)] (fun p _ => p) (fun _ => [0]) (fun _ => 0)
    acBase 5 1 1 (1/1000) (1/1000) (by decide)).1

/-- C7 (amended): of the public operations, only step_simulation, calibrate
and the particle-filter estimate touch the planner state: get_state,
set_amplitude, set_frequency and set_period leave position and velocity
unchanged. -/
theorem C7_side_operations_preserve_state (st : ACState) (a freq period piQ : ℚ) :
    (set_amplitude st a).S = st.S ∧ (set_amplitude st a).V = st.V ∧
    (set_frequency st freq).S = st.S ∧ (set_frequency st freq).V = st.V ∧
    (set_period piQ st period).S = st.S ∧ (set_period piQ st period).V = st.V ∧
    get_state st = st.S :=
  ⟨rfl, rfl, rfl, rfl, rfl, rfl, rfl⟩

/-- C7, as stated, is false: a pf_state call overwrites the planner position
with the resampled-cloud mean. Here the cloud is lazily created from (0, 0),
the single particle draws process noise (1, 0), d_step is 0 so solve_ivp
with t_eval = [0] returns its input unchanged (modelled by the identity
propagation), resampling a single particle can only pick index 0, and the
resulting mean 1 is written into the planner: position changes 0 to 1. -/
theorem C7_pf_state_overwrites_position :
    (pf_state (fun _ => 1) [(1, 0)] (fun p _ => p) (fun _ => [0]) (fun _ => 0)
        acBase 5 1 1 (1/1000) (1/1000)).1.S ≠ acBase.S := by
  with_unfolding_all decide

/-- C8 (amended): on every excitation-on tick with a fresh observation,
resync (calibrate) is invoked on an axis planner exactly when the absolute
difference between its last commanded value and the observed value exceeds
10 percent of the commanded amplitude for that axis, and the
particle-filter estimate runs for both axes. -/
theorem C8_resync_iff_drift (o : DTOracles) (st : DTState)
    (hon : st.forceOn = 1) (hobs : st.stateReceived = true) :
    (DTEvent.resyncH ∈ (emulate_dt o st).2 ↔
      (1/10) * st.lhWanted < |st.hAC.S - st.PThf|) ∧
    (DTEvent.resyncV ∈ (emulate_dt o st).2 ↔
      (1/10) * st.uvWanted < |st.vAC.S - st.PTvd|) ∧
    DTEvent.pfH ∈ (emulate_dt o st).2 ∧ DTEvent.pfV ∈ (emulate_dt o st).2 := by
  unfold emulate_dt
  rw [if_pos hon, hobs]
  dsimp only [if_true, get_state]
  by_cases h1 : (1/10) * st.lhWanted < |st.hAC.S - st.PThf| <;>
    by_cases h2 : (1/10) * st.uvWanted < |st.vAC.S - st.PTvd|
  · rw [if_pos h1, if_pos h2]
    simp [h1, h2]
    exact ⟨by rw [← one_div]; exact h1, by rw [← one_div]; exact h2⟩
  · rw [if_pos h1, if_neg h2]
    simp [h1, h2]
    exact ⟨by rw [← one_div]; exact h1, by rw [← one_div]; exact le_of_not_lt h2⟩
  · rw [if_neg h1, if_pos h2]
    simp [h1, h2]
    exact ⟨by rw [← one_div]; exact le_of_not_lt h1, by rw [← one_div]; exact h2⟩
  · rw [if_neg h1, if_neg h2]
    simp [h1, h2]
    exact ⟨by rw [← one_div]; exact le_of_not_lt h1, by rw [← one_div]; exact le_of_not_lt h2⟩

/-- C8 witness: excitation on, observation present, horizontal drift 50
against threshold 10, vertical drift 0: the horizontal planner is resynced
and the particle filter runs. -/
theorem C8_resync_iff_drift_witness :
    DTEvent.resyncH ∈ (emulate_dt dtOrcTriv dtBase).2 ∧
      DTEvent.pfH ∈ (emulate_dt dtOrcTriv dtBase).2 := by
  have h := C8_resync_iff_drift dtOrcTriv dtBase rfl rfl
  exact ⟨h.1.mpr (by with_unfolding_all decide), h.2.2.1⟩

/-- C8, as stated, is false: a tick can carry a fresh observation with a
drift far beyond 10 percent and still not resync, because the whole
observation branch is skipped when excitation is off. -/
theorem C8_no_resync_when_force_off :
    dtOff.stateReceived = true ∧
      (1/10) * dtOff.lhWanted < |dtOff.hAC.S - dtOff.PThf| ∧
      DTEvent.resyncH ∉ (emulate_dt dtOrcTriv dtOff).2 := by
  refine ⟨rfl, by with_unfolding_all decide, ?_⟩
  with_unfolding_all decide

/-- C10: an excitation-off tick of either service sets exactly the four
published output fields to zero (the DT additionally refreshes its modulus
field from the unchanged model), leaving planner ODE states, commanded
amplitudes and structural-model parameters untouched, as the full record
equalities show. -/
theorem C10_excitation_off_frame (po : PTOracles) (dOrc : DTOracles)
    (pst : PTState) (dst : DTState) (hp : pst.forceOn ≠ 1) (hd : dst.forceOn ≠ 1) :
    emulate_pt po pst = { pst with uh := 0, uv := 0, lh := 0, lv := 0 } ∧
    (emulate_dt dOrc dst).1 = { dst with uh := 0, uv := 0, lh := 0, lv := 0, Emod := dOrc.getE dst.model } ∧
    (emulate_dt dOrc dst).2 = [] := by
  unfold emulate_pt emulate_dt
  rw [if_neg hp, if_neg hd]
  exact ⟨rfl, rfl, rfl⟩

/-- C10 witness: concrete off-tick states with nonzero planner states,
amplitudes and model parameters. -/
theorem C10_excitation_off_frame_witness :
    emulate_pt ptOrcTriv ptOff = { ptOff with uh := 0, uv := 0, lh := 0, lv := 0 } ∧
      (emulate_dt dtOrcTriv dtOff).2 = [] := by
  have h := C10_excitation_off_frame ptOrcTriv dtOrcTriv ptOff dtOff (by decide) (by decide)
  exact ⟨h.1, h.2.2⟩

end HTB
